import Mathlib

/-!
Verification of the lexical-grammar layer of the xmldom repository
(src/mjs/grammar.mjs).  JavaScript strings are modelled as Lean strings
(sequences of Unicode scalar values), JavaScript RegExp values as a
structure carrying the source text and the flag string, and the
process-wide UNICODE_SUPPORT flag as an explicit boolean parameter `u`.
Regular-expression matching is given an executable backtracking
semantics over a small syntax tree whose rendering is proved equal to
the source text built by the grammar layer.
-/

set_option maxRecDepth 10000

namespace XmldomGrammar

/-- A compiled JavaScript regular expression: source text plus flag string. -/
structure JsRegExp where
  source : String
  flags : String
deriving DecidableEq, Repr

/-- Boolean test that `pat` is an initial segment of `l`. -/
def litPre : List Char → List Char → Bool
  | [], _ => true
  | _ :: _, [] => false
  | a :: pat, b :: l => a == b && litPre pat l

/-- First index at which `pat` occurs in the list, if any
(the search of JS `String.prototype.indexOf`). -/
def firstIdx? (pat : List Char) : List Char → Option Nat
  | [] => if litPre pat [] then some 0 else none
  | c :: xs => if litPre pat (c :: xs) then some 0 else (firstIdx? pat xs).map (· + 1)

/-- JS `String.prototype.indexOf`, returning -1 when the pattern is absent. -/
def strIndexOf (s pat : String) : Int :=
  match firstIdx? pat.data s.data with
  | some n => (n : Int)
  | none => -1

/-- Remove the first occurrence of `pat`
(JS `String.prototype.replace` with a string pattern and empty replacement). -/
def removeFirst (pat : List Char) : List Char → List Char
  | [] => []
  | c :: xs => if litPre pat (c :: xs) then (c :: xs).drop pat.length else c :: removeFirst pat xs

def strRemoveFirst (s pat : String) : String := String.mk (removeFirst pat.data s.data)

/-- Index of the last occurrence of the character `c`
(JS `String.prototype.lastIndexOf` with a one-character argument). -/
def lastIdx? (c : Char) : List Char → Option Nat
  | [] => none
  | x :: xs =>
    match lastIdx? c xs with
    | some i => some (i + 1)
    | none => if x == c then some 0 else none

def jsLastIndexOf (s : String) (c : Char) : Int :=
  match lastIdx? c s.data with
  | some n => (n : Int)
  | none => -1

/-- JS `String.prototype.slice` on char lists, with negative-index normalisation. -/
def jsSlice (l : List Char) (start stop : Int) : List Char :=
  (l.take (if stop < 0 then max ((l.length : Int) + stop) 0
           else min stop (l.length : Int)).toNat).drop
    (if start < 0 then max ((l.length : Int) + start) 0
     else min start (l.length : Int)).toNat

def hexVal (c : Char) : Option Nat :=
  if '0' ≤ c ∧ c ≤ '9' then some (c.toNat - 48)
  else if 'a' ≤ c ∧ c ≤ 'f' then some (c.toNat - 97 + 10)
  else if 'A' ≤ c ∧ c ≤ 'F' then some (c.toNat - 65 + 10)
  else none

def lbrace : Char := Char.ofNat 123

def rbrace : Char := Char.ofNat 125

/-- Parse the hex digits of a `\u{...}` escape up to the closing brace. -/
def parseHexRun : Nat → List Char → Nat → Option (Nat × List Char)
  | _, [], _ => none
  | 0, _ :: _, _ => none
  | fuel + 1, c :: rest, acc =>
    if c = rbrace then some (acc, rest)
    else
      match hexVal c with
      | some v => parseHexRun fuel rest (16 * acc + v)
      | none => none

/-- Parse one class atom: a `\xHH`, `\uHHHH` or `\u{...}` escape, an identity
escape, or a plain character. -/
def parseClassAtom : List Char → Option (Char × List Char)
  | [] => none
  | '\\' :: 'x' :: h1 :: h2 :: rest =>
    match hexVal h1, hexVal h2 with
    | some a, some b => some (Char.ofNat (16 * a + b), rest)
    | _, _ => none
  | '\\' :: 'u' :: c :: rest =>
    if c = lbrace then
      match parseHexRun (rest.length + 1) rest 0 with
      | some (n, rest2) => some (Char.ofNat n, rest2)
      | none => none
    else
      match c :: rest with
      | h1 :: h2 :: h3 :: h4 :: rest2 =>
        match hexVal h1, hexVal h2, hexVal h3, hexVal h4 with
        | some a, some b, some c1, some d =>
          some (Char.ofNat (4096 * a + 256 * b + 16 * c1 + d), rest2)
        | _, _, _, _ => none
      | _ => none
  | '\\' :: c :: rest => some (c, rest)
  | c :: rest => some (c, rest)

/-- An error thrown by grammar-layer code: either one of the layer's own usage
errors, or a SyntaxError raised by the `RegExp` constructor on an invalid
pattern source. -/
inductive JsError where
  | usageError : String → JsError
  | syntaxError : String → JsError
deriving DecidableEq, Repr

/-- Characters that cannot stand bare in a unicode-mode pattern
(the ES SyntaxCharacter set). -/
def strictExcluded (c : Char) : Bool :=
  c = '^' || c = '$' || c = '\\' || c = '.' || c = '*' || c = '+' || c = '?' ||
  c = '(' || c = ')' || c = '[' || c = ']' || c = lbrace || c = rbrace || c = '|'

/-- Characters that cannot stand bare in a non-unicode pattern
(the Annex-B ExtendedPatternCharacter exclusions). -/
def annexExcluded (c : Char) : Bool :=
  c = '^' || c = '$' || c = '\\' || c = '.' || c = '*' || c = '+' || c = '?' ||
  c = '(' || c = ')' || c = '[' || c = '|'

/-- Consume an optional quantifier, with an optional laziness marker. -/
def parseQuant : List Char → List Char
  | '*' :: '?' :: r => r
  | '*' :: r => r
  | '+' :: '?' :: r => r
  | '+' :: r => r
  | '?' :: '?' :: r => r
  | '?' :: r => r
  | r => r

/-- Scan a capture-group name up to the closing angle bracket. -/
def scanGroupName : List Char → Option (List Char)
  | [] => none
  | '>' :: r => some r
  | c :: r => if c.isAlphanum then scanGroupName r else none

/-- Scan a class body up to the unescaped closing bracket, returning the body
and the remainder. -/
def scanClassBody : List Char → Option (List Char × List Char)
  | [] => none
  | ']' :: r => some ([], r)
  | '\\' :: c :: r =>
    match scanClassBody r with
    | some (b, rest) => some ('\\' :: c :: b, rest)
    | none => none
  | c :: r =>
    match scanClassBody r with
    | some (b, rest) => some (c :: b, rest)
    | none => none

/-- Validity of a class body: a parseable sequence of atoms and ranges, with
every range in order. -/
def validClassItems : Nat → List Char → Bool
  | _, [] => true
  | 0, _ => false
  | fuel + 1, l =>
    match parseClassAtom l with
    | none => false
    | some (a, rest) =>
      match rest with
      | '-' :: rest2 =>
        if rest2.isEmpty then true
        else
          match parseClassAtom rest2 with
          | none => false
          | some (b, rest3) => decide (a ≤ b) && validClassItems fuel rest3
      | _ => validClassItems fuel rest

/-- Validity of the class at the head of `l` (the text after the opening
bracket): optional negation, valid body, closing bracket; returns the remainder. -/
def parseClass (l : List Char) : Option (List Char) :=
  match l with
  | '^' :: r =>
    match scanClassBody r with
    | some (b, rest) => if validClassItems (b.length + 1) b then some rest else none
    | none => none
  | r =>
    match scanClassBody r with
    | some (b, rest) => if validClassItems (b.length + 1) b then some rest else none
    | none => none

/-- Nonterminal being parsed by the pattern validator. -/
inductive PK where
  | disj : PK
  | moreAlts : PK
  | alt : PK
  | term : PK
deriving DecidableEq, Repr

/-- Recursive-descent validity parser for the regular-expression fragment the
grammar layer builds: disjunctions of alternatives of quantified terms, with
the start/end assertions, bare characters (mode-dependent), escapes, character
classes and non-capturing/capturing/named groups.  `u` selects the strict
unicode-mode rules for bare characters; returns the unconsumed remainder. -/
def parseP (u : Bool) : Nat → PK → List Char → Option (List Char)
  | 0, _, _ => none
  | fuel + 1, .disj, l =>
    match parseP u fuel .alt l with
    | none => none
    | some r => parseP u fuel .moreAlts r
  | fuel + 1, .moreAlts, l =>
    match l with
    | '|' :: r =>
      match parseP u fuel .alt r with
      | none => none
      | some r2 => parseP u fuel .moreAlts r2
    | _ => some l
  | fuel + 1, .alt, l =>
    match l with
    | [] => some []
    | '|' :: _ => some l
    | ')' :: _ => some l
    | _ =>
      match parseP u fuel .term l with
      | none => none
      | some r => parseP u fuel .alt r
  | fuel + 1, .term, l =>
    match l with
    | [] => none
    | '^' :: r => some r
    | '$' :: r => some r
    | '.' :: r => some (parseQuant r)
    | '\\' :: _ :: r => some (parseQuant r)
    | '(' :: r =>
      match
        (match r with
          | '?' :: ':' :: r2 => some r2
          | '?' :: '<' :: r2 => scanGroupName r2
          | '?' :: _ => none
          | _ => some r) with
      | none => none
      | some r2 =>
        match parseP u fuel .disj r2 with
        | some (')' :: r3) => some (parseQuant r3)
        | _ => none
    | '[' :: r =>
      match parseClass r with
      | some rest => some (parseQuant rest)
      | none => none
    | c :: r =>
      if (if u then strictExcluded c else annexExcluded c) then none
      else some (parseQuant r)

/-- Validity of a pattern source under the given unicode-mode flag: the parser
consumes the entire source. -/
def validPattern (u : Bool) (src : List Char) : Bool :=
  match parseP u (4 * src.length + 8) PK.disj src with
  | some [] => true
  | _ => false

/-- Model of the `RegExp` constructor: compiles `source` with `flags`,
normalising an empty source and throwing a SyntaxError when the source is not
a valid pattern (unicode mode exactly when the flags contain `u`). -/
def newRegExp (source flags : String) : Except JsError JsRegExp :=
  if validPattern (flags.data.contains 'u') source.data then
    .ok { source := if source = "" then "(?:)" else source, flags := flags }
  else
    .error (.syntaxError ("Invalid regular expression: /" ++ source ++ "/"))

/-- The `chars` helper of grammar.mjs: returns the source text strictly between
the leading `[` and the last `]`, throwing on patterns that do not start with `[`. -/
def chars (regexp : JsRegExp) : Except JsError String :=
  if regexp.source.data.head? ≠ some '[' then
    .error (.usageError ("/" ++ regexp.source ++ "/" ++ regexp.flags ++ " can not be used with chars"))
  else
    .ok (String.mk (jsSlice regexp.source.data 1 (jsLastIndexOf regexp.source ']')))

/-- The `chars_without` helper of grammar.mjs; `u` is the UNICODE_SUPPORT flag.
The `search` argument is `none` when a non-string value is passed.  After the
usage-error guards, the reduced source is compiled by the `RegExp` constructor,
whose SyntaxError propagates. -/
def chars_without (u : Bool) (regexp : JsRegExp) (search : Option String) :
    Except JsError JsRegExp :=
  if regexp.source.data.head? ≠ some '[' then
    .error (.usageError ("/" ++ regexp.source ++ "/ can not be used with chars_without"))
  else
    match search with
    | none => .error (.usageError "undefined is not a valid search")
    | some s =>
      if s = "" then .error (.usageError "\x22\x22 is not a valid search")
      else if strIndexOf regexp.source s = -1 then
        .error (.usageError ("\x22" ++ s ++ "\x22 is not is /" ++ regexp.source ++ "/"))
      else if s = "-" ∧ strIndexOf regexp.source s ≠ 1 then
        .error (.usageError
          ("\x22" ++ s ++ "\x22 is not at the first postion of /" ++ regexp.source ++ "/"))
      else
        newRegExp (strRemoveFirst regexp.source s) (if u then "u" else "")

/-- An argument to `reg`/`regg`: a literal string or a compiled pattern. -/
inductive RPart where
  | str : String → RPart
  | rx : JsRegExp → RPart
deriving DecidableEq, Repr

/-- The per-argument step of `reg`: literal strings pass through (rejecting a bare
alternation operator when `reg` is called directly), patterns contribute their source. -/
def regMapPart (selfUndefined : Bool) : RPart → Except JsError String
  | .str s =>
    if selfUndefined && s == "|" then
      .error (.usageError "use regg instead of reg to wrap expressions with `|`!")
    else .ok s
  | .rx r => .ok r.source

/-- The source text an argument contributes when no error is raised. -/
def partSource : RPart → String
  | .str s => s
  | .rx r => r.source

/-- The `reg` combinator of grammar.mjs.  `selfUndefined` is true for direct calls
(where the JS `this` is undefined) and false when applied through `regg`;
`u` is the UNICODE_SUPPORT flag. -/
def reg (selfUndefined u : Bool) (parts : List RPart) : Except JsError JsRegExp :=
  match parts.mapM (regMapPart selfUndefined) with
  | .error e => .error e
  | .ok srcs => newRegExp (String.join srcs) (if u then "mu" else "m")

/-- The `regg` combinator of grammar.mjs: like `reg`, but wraps the arguments in a
non-capturing group and rejects an empty argument list. -/
def regg (u : Bool) (parts : List RPart) : Except JsError JsRegExp :=
  if parts.length == 0 then .error (.usageError "no parameters provided")
  else reg false u ([RPart.str "(?:"] ++ parts ++ [RPart.str ")"])

/-- A value thrown by a JS regular-expression engine. -/
structure JsThrown where
  msg : String
deriving DecidableEq, Repr

/-- Outcome-level model of an injectable RegExp engine: given pattern source, flags
and input, it either throws or returns the matched segment (match[0]) if any. -/
def RegExpEngine := String → String → String → Except JsThrown (Option String)

/-- The astral probe character U+1D306 used by `detectUnicodeSupport`. -/
def probeChar : Char := Char.ofNat 0x1D306

def probeString : String := String.mk [probeChar]

/-- Length of a string in UTF-16 code units (the JS `length` metric). -/
def utf16Length (s : String) : Nat :=
  s.data.foldl (fun n c => n + (if 0x10000 ≤ c.toNat then 2 else 1)) 0

/-- The `detectUnicodeSupport` probe of grammar.mjs over an injected engine:
any thrown error is absorbed and yields false; a produced match counts as support
exactly when its JS length equals 2 (one surrogate pair). -/
def detectUnicodeSupport (engine : RegExpEngine) : Bool :=
  match engine probeString "u" probeString with
  | .error _ => false
  | .ok none => false
  | .ok (some m) => utf16Length m == 2

/-- Module-initialisation projection: grammar.mjs evaluates the construction calls
below at load time, where a thrown error would abort the module.  The default value
is never reached for the calls made by the production table. -/
def reg! (u : Bool) (parts : List RPart) : JsRegExp :=
  (reg true u parts).toOption.getD { source := "", flags := "" }

def regg! (u : Bool) (parts : List RPart) : JsRegExp :=
  (regg u parts).toOption.getD { source := "", flags := "" }

def chars! (r : JsRegExp) : String := (chars r).toOption.getD ""

def chars_without! (u : Bool) (r : JsRegExp) (search : String) : JsRegExp :=
  (chars_without u r (some search)).toOption.getD { source := "", flags := "" }

/-- A one-character string holding the apostrophe (written via its code point). -/
def sq : String := String.mk [Char.ofNat 39]

/-- The literal `[4] NameStartChar` class of grammar.mjs before the
UNICODE_SUPPORT extension (regex literal, so it carries no flags). -/
def NameStartChar_base : JsRegExp :=
  { source := "[:_a-zA-Z\\xC0-\\xD6\\xD8-\\xF6\\xF8-\\u02FF\\u0370-\\u1FFF\\u200C-\\u200D\\u2070-\\u218F\\u2C00-\\u2FEF\\u3001-\\uD7FF\\uF900-\\uFDCF\\uFDF0-\\uFFFD]",
    flags := "" }

/-- The astral-plane range appended when UNICODE_SUPPORT holds
(JS string literal with code-point escapes; braces written via \x7b/\x7d). -/
def astralRange : String := "\\u\x7b10000\x7d-\\u\x7b10FFFF\x7d"

/-- `NameStartChar`, after the conditional UNICODE_SUPPORT reassignment. -/
def NameStartChar (u : Bool) : JsRegExp :=
  if u then reg! u [.str "[", .str (chars! NameStartChar_base), .str astralRange, .str "]"]
  else NameStartChar_base

def NameStartChar_s (u : Bool) : String := chars! (NameStartChar u)

/-- `[4a] NameChar`. -/
def NameChar (u : Bool) : JsRegExp :=
  reg! u [.str "[", .str (NameStartChar_s u),
    .str (chars! { source := "[-.0-9\\xB7]", flags := "" }),
    .str (chars! { source := "[\\u0300-\\u036F\\u203F-\\u2040]", flags := "" }),
    .str "]"]

/-- `[5] Name ::= NameStartChar (NameChar)*`. -/
def Name (u : Bool) : JsRegExp :=
  reg! u [.rx (NameStartChar u), .rx (NameChar u), .str "*"]

/-- NameStartChar without `:`. -/
def NCNameStartChar (u : Bool) : JsRegExp := chars_without! u (NameStartChar u) ":"

/-- `[5] NCNameChar ::= NameChar - ':'`. -/
def NCNameChar (u : Bool) : JsRegExp := chars_without! u (NameChar u) ":"

/-- `[4] NCName ::= Name - (Char* ':' Char*)`. -/
def NCName (u : Bool) : JsRegExp :=
  reg! u [.rx (NCNameStartChar u), .rx (NCNameChar u), .str "*"]

/-- `[7] QName ::= NCName (':' NCName)?`. -/
def QName (u : Bool) : JsRegExp :=
  reg! u [.rx (NCName u), .rx (regg! u [.str ":", .rx (NCName u)]), .str "?"]

/-- The anchored whole-string QName variant. -/
def QName_exact (u : Bool) : JsRegExp := reg! u [.str "^", .rx (QName u), .str "$"]

/-- The whitespace character class `_SChar` (regex literal, no flags). -/
def SChar : JsRegExp := { source := "[\\x20\\x09\\x0D\\x0A]", flags := "" }

/-- `[3] S ::= (#x20 | #x9 | #xD | #xA)+`. -/
def S (u : Bool) : JsRegExp := reg! u [.rx SChar, .str "+"]

/-- `[11] SystemLiteral` (the inner regex literal holds apostrophes, built here
by concatenation with `sq`). -/
def SystemLiteral (u : Bool) : JsRegExp :=
  regg! u [.rx { source := "\"[^\"]*\"|" ++ sq ++ "[^" ++ sq ++ "]*" ++ sq, flags := "" }]

/-- `[13] PubidChar` (regex literal, no flags; contains an apostrophe). -/
def PubidChar : JsRegExp :=
  { source := "[\\x20\\x0D\\x0Aa-zA-Z0-9-" ++ sq ++ "()+,./:=?;!*#@$_%]", flags := "" }

/-- `[12] PubidLiteral`. -/
def PubidLiteral (u : Bool) : JsRegExp :=
  regg! u [.str "\"", .rx PubidChar, .str "*\"", .str "|", .str sq,
    .rx (chars_without! u PubidChar sq), .str ("*" ++ sq)]

def SYSTEM : String := "SYSTEM"

def PUBLIC : String := "PUBLIC"

/-- The matching variant of `[75] ExternalID`, with named capture groups. -/
def ExternalID_match (u : Bool) : JsRegExp :=
  reg! u [.str "^",
    .rx (regg! u [
      .rx (regg! u [.str SYSTEM, .rx (S u), .str "(?<SystemLiteralOnly>",
        .rx (SystemLiteral u), .str ")"]),
      .str "|",
      .rx (regg! u [.str PUBLIC, .rx (S u), .str "(?<PubidLiteral>",
        .rx (PubidLiteral u), .str ")", .rx (S u), .str "(?<SystemLiteral>",
        .rx (SystemLiteral u), .str ")"])])]

/-! Semantics of the produced regular expressions.  A small syntax tree `RE`
renders to source text; the render of each tree below is proved equal to the
source text the grammar layer builds, and matching is an executable
backtracking search in the priority order of a JS engine (leftmost start
position, left alternative first, greedy quantifiers). -/

/-- Syntax of the regular-expression fragment used by the productions under
study.  `cls neg body` is a character class with the raw (unparsed) body text;
`bol`/`eol` are the `^`/`$` assertions under the `m` flag. -/
inductive RE where
  | eps : RE
  | lit : List Char → RE
  | cls : Bool → List Char → RE
  | seq : RE → RE → RE
  | alt : RE → RE → RE
  | star : RE → RE
  | plus : RE → RE
  | opt : RE → RE
  | ncg : RE → RE
  | group : String → RE → RE
  | bol : RE
  | eol : RE
deriving DecidableEq, Repr

/-- Source text of a syntax tree. -/
def RE.render : RE → String
  | .eps => ""
  | .lit l => String.mk l
  | .cls neg body => (if neg then "[^" else "[") ++ String.mk body ++ "]"
  | .seq a b => a.render ++ b.render
  | .alt a b => a.render ++ "|" ++ b.render
  | .star a => a.render ++ "*"
  | .plus a => a.render ++ "+"
  | .opt a => a.render ++ "?"
  | .ncg a => "(?:" ++ a.render ++ ")"
  | .group n a => "(?<" ++ n ++ ">" ++ a.render ++ ")"
  | .bol => "^"
  | .eol => "$"

/-- A parsed class item: a single character or an inclusive range. -/
inductive ClassItem where
  | single : Char → ClassItem
  | range : Char → Char → ClassItem
deriving DecidableEq, Repr

/-- Parse a class body left to right; after an atom, a dash followed by another
atom forms a range, a trailing dash is literal (the ES ClassRanges grammar). -/
def parseClassItems : Nat → List Char → List ClassItem
  | 0, _ => []
  | _, [] => []
  | fuel + 1, l =>
    match parseClassAtom l with
    | none => []
    | some (a, rest) =>
      match rest with
      | '-' :: rest2 =>
        if rest2.isEmpty then [.single a, .single '-']
        else
          match parseClassAtom rest2 with
          | none => [.single a, .single '-']
          | some (b, rest3) => .range a b :: parseClassItems fuel rest3
      | _ => .single a :: parseClassItems fuel rest

def itemMatches (c : Char) : ClassItem → Bool
  | .single a => c == a
  | .range a b => decide (a ≤ c ∧ c ≤ b)

/-- Membership of a character in a class body. -/
def classMem (body : List Char) (c : Char) : Bool :=
  (parseClassItems (body.length + 1) body).any (itemMatches c)

/-- Named-capture assignments recorded along a match. -/
abbrev Caps := List (String × String)

/-- The possible continuations of a match attempt: remaining input paired with
the captures made so far, in the backtracking priority order of a JS engine. -/
abbrev MRes := List (List Char × Caps)

def isLineTerm (c : Char) : Bool :=
  c == Char.ofNat 10 || c == Char.ofNat 13 || c == Char.ofNat 0x2028 || c == Char.ofNat 0x2029

/-- The character immediately before the remaining input `rest`, given the
character `prev` before `cs` and that `rest` is reached by consuming a prefix
of `cs`. -/
def prevAfter (prev : Option Char) (cs rest : List Char) : Option Char :=
  match (cs.take (cs.length - rest.length)).getLast? with
  | some c => some c
  | none => prev

/-- All ways of matching `r` against a prefix of `cs` (with `prev` the character
before `cs`, for the `m`-flag assertions), in priority order.  The fuel bounds
the number of quantifier iterations; a star iteration that consumes nothing is
not repeated, as in the ES specification. -/
def mrun : Nat → RE → Option Char → List Char → MRes
  | 0, _, _, _ => []
  | f + 1, re, prev, cs =>
    match re with
    | .eps => [(cs, [])]
    | .lit l => if litPre l cs then [(cs.drop l.length, [])] else []
    | .cls neg body =>
      match cs with
      | [] => []
      | c :: rest => if classMem body c = !neg then [(rest, [])] else []
    | .seq a b =>
      (mrun f a prev cs).flatMap fun p =>
        (mrun f b (prevAfter prev cs p.1) p.1).map fun q => (q.1, p.2 ++ q.2)
    | .alt a b => mrun f a prev cs ++ mrun f b prev cs
    | .star a =>
      ((mrun f a prev cs).filter fun p => p.1.length < cs.length).flatMap
        (fun p => (mrun f (.star a) (prevAfter prev cs p.1) p.1).map
          fun q => (q.1, p.2 ++ q.2)) ++ [(cs, [])]
    | .plus a =>
      (mrun f a prev cs).flatMap fun p =>
        (mrun f (.star a) (prevAfter prev cs p.1) p.1).map fun q => (q.1, p.2 ++ q.2)
    | .opt a => mrun f a prev cs ++ [(cs, [])]
    | .ncg a => mrun f a prev cs
    | .group n a =>
      (mrun f a prev cs).map fun p =>
        (p.1, p.2 ++ [(n, String.mk (cs.take (cs.length - p.1.length)))])
    | .bol => if prev.all isLineTerm then [(cs, [])] else []
    | .eol =>
      match cs with
      | [] => [([], [])]
      | c :: rest => if isLineTerm c then [(c :: rest, [])] else []

/-- Whole-string membership: some way of matching `r` consumes all of `s`. -/
def fullMatchF (f : Nat) (r : RE) (s : String) : Bool :=
  (mrun f r none s.data).any fun p => p.1.isEmpty

/-- JS `RegExp.prototype.test`: search for a match from each start position. -/
def jsTestAux (f : Nat) (r : RE) : Option Char → List Char → Bool
  | prev, [] => !(mrun f r prev []).isEmpty
  | prev, c :: rest => !(mrun f r prev (c :: rest)).isEmpty || jsTestAux f r (some c) rest

def jsTestF (f : Nat) (r : RE) (s : String) : Bool := jsTestAux f r none s.data

/-- JS `RegExp.prototype.exec`, reduced to the captures of the first match in
priority order at the leftmost matching start position. -/
def jsExecAux (f : Nat) (r : RE) : Option Char → List Char → Option Caps
  | prev, [] =>
    match mrun f r prev [] with
    | p :: _ => some p.2
    | [] => none
  | prev, c :: rest =>
    match mrun f r prev (c :: rest) with
    | p :: _ => some p.2
    | [] => jsExecAux f r (some c) rest

def jsExecF (f : Nat) (r : RE) (s : String) : Option Caps := jsExecAux f r none s.data

/-- Value of a named group in an exec result (`none` models `undefined`). -/
def groupVal (caps : Option Caps) (n : String) : Option String :=
  match caps with
  | none => none
  | some l => ((l.filter fun p => p.1 == n).getLast?).map (·.2)

/-- The character class of a bracket-expression pattern, as a syntax tree. -/
def clsOf (r : JsRegExp) : RE := .cls false (chars! r).data

/-- The apostrophe character. -/
def sqc : Char := Char.ofNat 39

/-- Syntax tree of `NCName`. -/
def NCName_ast (u : Bool) : RE :=
  .seq (clsOf (NCNameStartChar u)) (.star (clsOf (NCNameChar u)))

/-- Syntax tree of `Name`. -/
def Name_ast (u : Bool) : RE :=
  .seq (clsOf (NameStartChar u)) (.star (clsOf (NameChar u)))

/-- Syntax tree of `QName`. -/
def QName_ast (u : Bool) : RE :=
  .seq (NCName_ast u) (.opt (.ncg (.seq (.lit [':']) (NCName_ast u))))

/-- Syntax tree of `QName_exact`. -/
def QName_exact_ast (u : Bool) : RE := .seq .bol (.seq (QName_ast u) .eol)

/-- Syntax tree of `S`. -/
def S_ast : RE := .plus (clsOf SChar)

/-- Syntax tree of `SystemLiteral`. -/
def SystemLiteral_ast : RE :=
  .ncg (.alt
    (.seq (.lit ['"']) (.seq (.star (.cls true ['"'])) (.lit ['"'])))
    (.seq (.lit [sqc]) (.seq (.star (.cls true [sqc])) (.lit [sqc]))))

/-- Syntax tree of `PubidLiteral`. -/
def PubidLiteral_ast (u : Bool) : RE :=
  .ncg (.alt
    (.seq (.lit ['"']) (.seq (.star (clsOf PubidChar)) (.lit ['"'])))
    (.seq (.lit [sqc]) (.seq (.star (clsOf (chars_without! u PubidChar sq))) (.lit [sqc]))))

/-- Syntax tree of the body of `ExternalID_match` (everything after the `^`). -/
def ExternalID_inner_ast (u : Bool) : RE :=
  .ncg (.alt
    (.ncg (.seq (.lit "SYSTEM".data)
      (.seq S_ast (.group "SystemLiteralOnly" SystemLiteral_ast))))
    (.ncg (.seq (.lit "PUBLIC".data)
      (.seq S_ast (.seq (.group "PubidLiteral" (PubidLiteral_ast u))
        (.seq S_ast (.group "SystemLiteral" SystemLiteral_ast)))))))

/-- Syntax tree of `ExternalID_match`. -/
def ExternalID_match_ast (u : Bool) : RE := .seq .bol (ExternalID_inner_ast u)

/-- Every character consumable by a class or literal of `r` differs from `ch`
(a negated class avoids `ch` exactly when its body contains `ch`). -/
def excludesChar (ch : Char) : RE → Bool
  | .eps => true
  | .lit l => l.all fun c => !(c == ch)
  | .cls neg body => classMem body ch == neg
  | .seq a b => excludesChar ch a && excludesChar ch b
  | .alt a b => excludesChar ch a && excludesChar ch b
  | .star a => excludesChar ch a
  | .plus a => excludesChar ch a
  | .opt a => excludesChar ch a
  | .ncg a => excludesChar ch a
  | .group _ a => excludesChar ch a
  | .bol => true
  | .eol => true

/-- The tree `r` contains no end-of-line assertion. -/
def noEol : RE → Bool
  | .eps => true
  | .lit _ => true
  | .cls _ _ => true
  | .seq a b => noEol a && noEol b
  | .alt a b => noEol a && noEol b
  | .star a => noEol a
  | .plus a => noEol a
  | .opt a => noEol a
  | .ncg a => noEol a
  | .group _ a => noEol a
  | .bol => true
  | .eol => false

/-! Helper lemmas. -/

theorem mapM_ok_of_forall {α β ε : Type} (f : α → Except ε β) :
    ∀ l : List α, (∀ x ∈ l, ∃ y, f x = .ok y) → ∃ v, l.mapM f = .ok v := by
  intro l
  induction l with
  | nil => intro _; exact ⟨[], rfl⟩
  | cons a l ih =>
    intro h
    obtain ⟨y, hy⟩ := h a (by simp)
    obtain ⟨v, hv⟩ := ih (fun x hx => h x (by simp [hx]))
    refine ⟨y :: v, ?_⟩
    rw [List.mapM_cons, hy, hv]
    rfl

theorem mapM_error_of_mem {α β ε : Type} (f : α → Except ε β) (P : ε → Prop)
    (hP : ∀ x e, f x = .error e → P e) :
    ∀ (l : List α) (x : α), x ∈ l → (∃ e0, f x = .error e0) →
      ∃ e, l.mapM f = .error e ∧ P e := by
  intro l
  induction l with
  | nil => intro x hx; cases hx
  | cons a l ih =>
    intro x hx he0
    obtain ⟨e0, he⟩ := he0
    rw [List.mapM_cons]
    cases hx with
    | head => exact ⟨e0, by rw [he]; rfl, hP _ e0 he⟩
    | tail _ hmem =>
      cases hfa : f a with
      | error e => exact ⟨e, by rfl, hP a e hfa⟩
      | ok y =>
        obtain ⟨e, he2, hPe⟩ := ih x hmem ⟨e0, he⟩
        exact ⟨e, by rw [he2]; rfl, hPe⟩

theorem mapM_eq_map {α β ε : Type} (f : α → Except ε β) (g : α → β) :
    ∀ l : List α, (∀ x ∈ l, f x = .ok (g x)) → l.mapM f = .ok (l.map g) := by
  intro l
  induction l with
  | nil => intro _; rfl
  | cons a l ih =>
    intro h
    rw [List.mapM_cons, h a (by simp), ih (fun x hx => h x (by simp [hx]))]
    rfl

theorem newRegExp_not_usage (source flags : String) (m : String) :
    newRegExp source flags ≠ .error (JsError.usageError m) := by
  unfold newRegExp
  split <;> simp

theorem newRegExp_ok_flags {source flags : String} {p : JsRegExp}
    (h : newRegExp source flags = .ok p) : p.flags = flags := by
  unfold newRegExp at h
  split at h
  · simp only [Except.ok.injEq] at h
    subst h
    rfl
  · cases h

theorem reg_ok_flags {selfU u : Bool} {parts : List RPart} {p : JsRegExp}
    (h : reg selfU u parts = .ok p) : p.flags = if u then "mu" else "m" := by
  unfold reg at h
  cases hm : parts.mapM (regMapPart selfU) with
  | error e => rw [hm] at h; cases h
  | ok v =>
    rw [hm] at h
    exact newRegExp_ok_flags h

theorem regg_ok_flags {u : Bool} {parts : List RPart} {q : JsRegExp}
    (h : regg u parts = .ok q) : q.flags = if u then "mu" else "m" := by
  unfold regg at h
  split at h
  · cases h
  · exact reg_ok_flags h

theorem chars_without_ok_flags {u : Bool} {rx : JsRegExp} {search : Option String}
    {r : JsRegExp} (h : chars_without u rx search = .ok r) :
    r.flags = if u then "u" else "" := by
  cases search with
  | none =>
    simp only [chars_without] at h
    split at h
    · cases h
    · cases h
  | some s =>
    simp only [chars_without] at h
    split at h
    · cases h
    · split at h
      · cases h
      · split at h
        · cases h
        · split at h
          · cases h
          · exact newRegExp_ok_flags h

theorem chars_without_guards_pass {u : Bool} {rx : JsRegExp} {s : String}
    (h1 : rx.source.data.head? = some '[') (h2 : s ≠ "")
    (h3 : strIndexOf rx.source s ≠ -1)
    (h4 : ¬(s = "-" ∧ strIndexOf rx.source s ≠ 1)) :
    chars_without u rx (some s) = newRegExp (strRemoveFirst rx.source s)
      (if u then "u" else "") := by
  simp only [chars_without]
  rw [if_neg (by simp [h1]), if_neg h2, if_neg h3, if_neg h4]

theorem lastIdx_concat (c : Char) : ∀ l : List Char, lastIdx? c (l ++ [c]) = some l.length := by
  intro l
  induction l with
  | nil => simp [lastIdx?]
  | cons x xs ih =>
    show lastIdx? c (x :: (xs ++ [c])) = some (xs.length + 1)
    unfold lastIdx?
    rw [ih]

theorem jsSlice_class (Xd : List Char) :
    jsSlice ('[' :: (Xd ++ [']'])) 1 ((Xd.length : Int) + 1) = Xd := by
  have hlen : ('[' :: (Xd ++ [']'])).length = Xd.length + 2 := by simp
  unfold jsSlice
  rw [hlen]
  rw [if_neg (show ¬ ((Xd.length : Int) + 1 < 0) by omega),
      if_neg (show ¬ ((1 : Int) < 0) by omega)]
  have h3 : (min ((Xd.length : Int) + 1) ((Xd.length + 2 : Nat) : Int)).toNat
      = Xd.length + 1 := by
    push_cast
    omega
  have h4 : (min (1 : Int) ((Xd.length + 2 : Nat) : Int)).toNat = 1 := by
    push_cast
    omega
  rw [h3, h4]
  rw [List.take_succ_cons, List.take_left, List.drop_succ_cons, List.drop_zero]

/-! Claim C1 (corrected).  The original claim checks token occurrence against
the class body, while the code checks it against the whole pattern source; and
after the guards the result is the constructor's compilation of the reduced
source, which can itself throw a SyntaxError. -/

/-- C1 counterexample: the token `[` does not occur in the class body `a` of
the pattern `[a]`, yet `chars_without` raises no usage error: with the
capability flag off it returns the pattern `/a]/`, and with the flag on the
constructor rejects the reduced source `a]` with a SyntaxError (not a usage
error). -/
theorem chars_without_body_counterexample :
    chars_without false { source := "[a]", flags := "" } (some "[") =
        .ok { source := "a]", flags := "" } ∧
    chars_without true { source := "[a]", flags := "" } (some "[") =
        .error (.syntaxError "Invalid regular expression: /a]/") ∧
    chars { source := "[a]", flags := "" } = .ok "a" ∧
    strIndexOf "a" "[" = -1 := by
  refine ⟨by rfl, by rfl, by rfl, by rfl⟩

/-- C1 amended: `chars_without` raises a usage error exactly when the pattern
source does not start with `[`, the token is missing or empty, the token does
not occur verbatim in the whole pattern source, or the token is `-` and its
first occurrence in the source is not at index 1 (the first body position).
When none of these holds, the call is exactly the constructor's compilation of
the source with the first occurrence of the token removed, which returns a new
pattern when that reduced source is valid and throws a SyntaxError otherwise. -/
theorem chars_without_error_iff : ∀ (u : Bool) (rx : JsRegExp) (search : Option String),
    ((∃ m, chars_without u rx search = .error (JsError.usageError m)) ↔
      (rx.source.data.head? ≠ some '[' ∨ search = none ∨ search = some "" ∨
       (∃ s, search = some s ∧ strIndexOf rx.source s = -1) ∨
       (search = some "-" ∧ strIndexOf rx.source "-" ≠ 1))) ∧
    (∀ s, search = some s → rx.source.data.head? = some '[' → s ≠ "" →
      strIndexOf rx.source s ≠ -1 → ¬(s = "-" ∧ strIndexOf rx.source s ≠ 1) →
      chars_without u rx search = newRegExp (strRemoveFirst rx.source s)
        (if u then "u" else "")) := by
  intro u rx search
  constructor
  · by_cases h1 : rx.source.data.head? = some '['
    · cases search with
      | none => simp [chars_without, h1]
      | some s =>
        by_cases h2 : s = ""
        · subst h2
          simp [chars_without, h1]
        · by_cases h3 : strIndexOf rx.source s = -1
          · simp [chars_without, h1, h2, h3]
          · by_cases h4 : s = "-"
            · subst h4
              by_cases h5 : strIndexOf rx.source "-" = 1
              · rw [chars_without_guards_pass h1 h2 h3 (by simp [h5])]
                constructor
                · rintro ⟨m, hm⟩
                  exact absurd hm (newRegExp_not_usage _ _ m)
                · rintro (h | h | h | ⟨s', hs', hidx⟩ | ⟨_, hidx⟩)
                  · exact absurd h1 h
                  · cases h
                  · exact absurd (by injection h) h2
                  · obtain rfl : "-" = s' := by injection hs'
                    exact absurd hidx h3
                  · exact absurd h5 hidx
              · simp [chars_without, h1, h3, h5]
            · rw [chars_without_guards_pass h1 h2 h3 (by simp [h4])]
              constructor
              · rintro ⟨m, hm⟩
                exact absurd hm (newRegExp_not_usage _ _ m)
              · rintro (h | h | h | ⟨s', hs', hidx⟩ | ⟨hs, _⟩)
                · exact absurd h1 h
                · cases h
                · exact absurd (by injection h) h2
                · obtain rfl : s = s' := by injection hs'
                  exact absurd hidx h3
                · exact absurd (by injection hs) h4
    · simp [chars_without, h1]
  · intro s hs hhead hne hidx hnd
    subst hs
    exact chars_without_guards_pass hhead hne hidx hnd

/-- Witness for the amended C1 theorem at concrete inputs. -/
theorem chars_without_error_iff_witness :
    (∃ m, chars_without false { source := "ab", flags := "" } none =
      .error (JsError.usageError m)) ∧
    chars_without false { source := "[ab]", flags := "" } (some "a") =
      newRegExp (strRemoveFirst "[ab]" "a") "" := by
  constructor
  · exact (chars_without_error_iff false { source := "ab", flags := "" } none).1.mpr
      (Or.inl (by decide))
  · exact (chars_without_error_iff false { source := "[ab]", flags := "" } (some "a")).2
      "a" rfl (by decide) (by decide) (by decide) (by decide)

/-! Claim C2 (corrected).  Patterns built by `reg`/`regg` always carry `m`,
carry `u` exactly when the capability flag holds, and never carry `i`; but the
pattern returned by `chars_without` carries no `m` flag. -/

/-- C2 counterexample: `chars_without` builds its result with flag string
`"u"` (capability flag true), which does not contain the multiline flag. -/
theorem chars_without_flags_counterexample :
    chars_without true { source := "[ab]", flags := "" } (some "a") =
        .ok { source := "[b]", flags := "u" } ∧
    'm' ∉ ("u" : String).data := by
  exact ⟨by rfl, by decide⟩

/-- C2 amended: every pattern built by `reg` or `regg` carries the multiline
flag, carries the unicode flag exactly when the capability flag is true, and
never carries the case-insensitive flag; the pattern returned by `chars_without`
carries the unicode flag exactly when the capability flag is true and never
carries the multiline or case-insensitive flags. -/
theorem flag_invariant_amended : ∀ (selfU u : Bool) (parts : List RPart)
    (rx : JsRegExp) (search : Option String) (p q r : JsRegExp),
    (reg selfU u parts = .ok p →
      'm' ∈ p.flags.data ∧ ('u' ∈ p.flags.data ↔ u = true) ∧ 'i' ∉ p.flags.data) ∧
    (regg u parts = .ok q →
      'm' ∈ q.flags.data ∧ ('u' ∈ q.flags.data ↔ u = true) ∧ 'i' ∉ q.flags.data) ∧
    (chars_without u rx search = .ok r →
      'm' ∉ r.flags.data ∧ ('u' ∈ r.flags.data ↔ u = true) ∧ 'i' ∉ r.flags.data) := by
  intro selfU u parts rx search p q r
  refine ⟨fun h => ?_, fun h => ?_, fun h => ?_⟩
  · rw [reg_ok_flags h]
    cases u <;> simp
  · rw [regg_ok_flags h]
    cases u <;> simp
  · rw [chars_without_ok_flags h]
    cases u <;> simp

/-- Witness for the amended C2 theorem at concrete inputs. -/
theorem flag_invariant_amended_witness :
    ('m' ∈ ({ source := "a", flags := "mu" } : JsRegExp).flags.data ∧
      ('u' ∈ ({ source := "a", flags := "mu" } : JsRegExp).flags.data ↔ true = true) ∧
      'i' ∉ ({ source := "a", flags := "mu" } : JsRegExp).flags.data) ∧
    ('m' ∉ ({ source := "[b]", flags := "u" } : JsRegExp).flags.data ∧
      ('u' ∈ ({ source := "[b]", flags := "u" } : JsRegExp).flags.data ↔ true = true) ∧
      'i' ∉ ({ source := "[b]", flags := "u" } : JsRegExp).flags.data) := by
  have h := flag_invariant_amended true true [RPart.str "a"]
    { source := "[ab]", flags := "" } (some "a")
    { source := "a", flags := "mu" } { source := "a", flags := "mu" }
    { source := "[b]", flags := "u" }
  exact ⟨h.1 (by rfl), h.2.2 (by rfl)⟩

/-! Claim C3 (confirmed): `chars` is a left inverse of class construction. -/

/-- C3: for every class interior `X`, `chars` applied to a pattern with source
`[X]` returns exactly `X`, and `chars` raises a usage error on any pattern
whose source does not start with `[`. -/
theorem chars_left_inverse : ∀ (fl X : String) (rx : JsRegExp),
    (chars { source := "[" ++ X ++ "]", flags := fl } = .ok X) ∧
    (rx.source.data.head? ≠ some '[' → ∃ m, chars rx = .error (JsError.usageError m)) := by
  intro fl X rx
  constructor
  · have hdata : ("[" ++ X ++ "]" : String).data = '[' :: (X.data ++ [']']) := by
      simp
    have hhead : ("[" ++ X ++ "]" : String).data.head? = some '[' := by
      rw [hdata]
      rfl
    unfold chars
    rw [if_neg (by simp [hhead])]
    have hlast : jsLastIndexOf ("[" ++ X ++ "]") ']' = (X.data.length : Int) + 1 := by
      unfold jsLastIndexOf
      rw [hdata]
      have : '[' :: (X.data ++ [']']) = ('[' :: X.data) ++ [']'] := by simp
      rw [this, lastIdx_concat]
      simp
    simp only [hdata, hlast]
    rw [jsSlice_class]
  · intro h
    unfold chars
    rw [if_pos h]
    exact ⟨_, rfl⟩

/-- Witness for C3 at concrete inputs. -/
theorem chars_left_inverse_witness :
    chars { source := "[" ++ "a-z" ++ "]", flags := "" } = .ok "a-z" ∧
    (∃ m, chars { source := "abc", flags := "" } = .error (JsError.usageError m)) := by
  have h := chars_left_inverse "" "a-z" { source := "abc", flags := "" }
  exact ⟨h.1, h.2 (by decide)⟩

/-! Claim C4 (confirmed): the capability probe absorbs engine errors and
accepts exactly a match of JS length 2. -/

/-- C4: for every injected engine, a thrown error yields `false` (and is never
propagated, the probe being a total function); a produced match of JS length 2
yields `true`; a produced match of any other JS length yields `false`. -/
theorem detectUnicodeSupport_spec : ∀ engine : RegExpEngine,
    (∀ err, engine probeString "u" probeString = .error err →
      detectUnicodeSupport engine = false) ∧
    (∀ m, engine probeString "u" probeString = .ok (some m) → utf16Length m = 2 →
      detectUnicodeSupport engine = true) ∧
    (∀ m, engine probeString "u" probeString = .ok (some m) → utf16Length m ≠ 2 →
      detectUnicodeSupport engine = false) := by
  intro engine
  refine ⟨fun err h => ?_, fun m h hl => ?_, fun m h hl => ?_⟩
  · unfold detectUnicodeSupport
    rw [h]
  · unfold detectUnicodeSupport
    rw [h]
    simp [hl]
  · unfold detectUnicodeSupport
    rw [h]
    simp [hl]

/-- Witness for C4: three concrete engines (throwing; matching the probe
character, whose segment has JS length 2; matching a one-unit segment). -/
theorem detectUnicodeSupport_spec_witness :
    detectUnicodeSupport (fun _ _ _ => .error { msg := "no unicode flag" }) = false ∧
    detectUnicodeSupport (fun _ _ _ => .ok (some probeString)) = true ∧
    detectUnicodeSupport (fun _ _ _ => .ok (some "a")) = false := by
  refine ⟨(detectUnicodeSupport_spec _).1 _ rfl,
    (detectUnicodeSupport_spec _).2.1 probeString rfl (by decide),
    (detectUnicodeSupport_spec _).2.2 "a" rfl (by decide)⟩

/-! Validity of grouped empty alternations, used for claim C5: the source
`(?:` followed by any number of alternation operators and `)` is a valid
pattern in both modes. -/

theorem parseP_alt_stop (u : Bool) (f : Nat) (l : List Char)
    (h : l = [] ∨ (∃ r, l = '|' :: r) ∨ (∃ r, l = ')' :: r)) (hf : 1 ≤ f) :
    parseP u f .alt l = some l := by
  match f, hf with
  | f + 1, _ =>
    rcases h with rfl | ⟨r, rfl⟩ | ⟨r, rfl⟩ <;> simp [parseP]

theorem parseP_moreAlts_pipes (u : Bool) : ∀ (n f : Nat) (tail : List Char),
    n + 1 ≤ f →
    parseP u f .moreAlts (List.replicate n '|' ++ ')' :: tail) = some (')' :: tail) := by
  intro n
  induction n with
  | zero =>
    intro f tail hf
    match f, hf with
    | f + 1, _ => simp [parseP]
  | succ n ih =>
    intro f tail hf
    match f, hf with
    | f + 1, _ =>
      show parseP u (f + 1) .moreAlts ('|' :: (List.replicate n '|' ++ ')' :: tail)) = _
      simp only [parseP]
      rw [parseP_alt_stop u f _ (by cases n <;> simp [List.replicate]) (by omega)]
      exact ih f tail (by omega)

theorem parseP_disj_pipes (u : Bool) (f n : Nat) (tail : List Char) (hf : n + 3 ≤ f) :
    parseP u f .disj (List.replicate n '|' ++ ')' :: tail) = some (')' :: tail) := by
  match f, hf with
  | f + 1, _ =>
    simp only [parseP]
    rw [parseP_alt_stop u f _ (by cases n <;> simp [List.replicate]) (by omega)]
    exact parseP_moreAlts_pipes u n f tail (by omega)

theorem parseP_term_group_pipes (u : Bool) (f n : Nat) (hf : n + 5 ≤ f) :
    parseP u f .term ('(' :: '?' :: ':' :: (List.replicate n '|' ++ [')'])) = some [] := by
  match f, hf with
  | f + 1, _ =>
    simp only [parseP]
    rw [show List.replicate n '|' ++ [')'] = List.replicate n '|' ++ ')' :: [] from rfl,
      parseP_disj_pipes u f n [] (by omega)]
    rfl

theorem parseP_disj_group_pipes (u : Bool) : ∀ (f n : Nat), n + 8 ≤ f →
    parseP u f .disj ('(' :: '?' :: ':' :: (List.replicate n '|' ++ [')'])) = some [] := by
  intro f n hf
  match f, hf with
  | f + 1, _ =>
    simp only [parseP]
    have halt : parseP u f .alt ('(' :: '?' :: ':' :: (List.replicate n '|' ++ [')']))
        = some [] := by
      match f, show n + 7 ≤ f by omega with
      | f + 1, _ =>
        simp only [parseP]
        rw [parseP_term_group_pipes u f n (by omega)]
        exact parseP_alt_stop u f [] (Or.inl rfl) (by omega)
    rw [halt]
    match f, show n + 7 ≤ f by omega with
    | f + 1, _ => simp [parseP]

theorem validPattern_group_pipes (u : Bool) (n : Nat) :
    validPattern u ('(' :: '?' :: ':' :: (List.replicate n '|' ++ [')'])) = true := by
  unfold validPattern
  rw [parseP_disj_group_pipes u _ n (by simp; omega)]

theorem join_foldl_data : ∀ (l : List String) (init : String),
    (l.foldl (· ++ ·) init).data = init.data ++ (l.map String.data).flatten := by
  intro l
  induction l with
  | nil => intro init; simp
  | cons a rest ih =>
    intro init
    simp only [List.foldl_cons, List.map_cons, List.flatten_cons]
    rw [ih]
    simp

theorem allPipe_join_data {parts : List RPart} (h : ∀ x ∈ parts, x = RPart.str "|") :
    ((parts.map partSource).map String.data).flatten = List.replicate parts.length '|' := by
  induction parts with
  | nil => rfl
  | cons a rest ih =>
    have ha : a = RPart.str "|" := h a (by simp)
    subst ha
    have hrest := ih (fun x hx => h x (by simp [hx]))
    simp only [List.map_cons, List.flatten_cons, hrest]
    rfl

/-! Claim C5 (confirmed): a bare `|` literal is rejected by direct `reg` calls,
while `regg` accepts `|` literal arguments without error. -/

/-- C5: `reg` called directly raises a usage error whenever some argument is
the literal string `|`; `regg` applied to any non-empty list of `|` literal
arguments returns a compiled pattern without error. -/
theorem reg_pipe_guard : ∀ (u : Bool) (parts : List RPart),
    (RPart.str "|" ∈ parts → ∃ m, reg true u parts = .error (JsError.usageError m)) ∧
    (parts ≠ [] → (∀ x ∈ parts, x = RPart.str "|") → ∃ p, regg u parts = .ok p) := by
  intro u parts
  constructor
  · intro hmem
    obtain ⟨e, he, m, rfl⟩ := mapM_error_of_mem (regMapPart true)
      (fun e => ∃ m, e = JsError.usageError m)
      (by
        intro x e hx
        cases x with
        | str s =>
          simp only [regMapPart] at hx
          split at hx
          · exact ⟨_, by injection hx with h2; rw [← h2]⟩
          · cases hx
        | rx r => cases hx)
      parts _ hmem ⟨_, rfl⟩
    refine ⟨m, ?_⟩
    unfold reg
    rw [he]
  · intro hne hall
    have hmapM : ([RPart.str "(?:"] ++ parts ++ [RPart.str ")"]).mapM (regMapPart false)
        = .ok (([RPart.str "(?:"] ++ parts ++ [RPart.str ")"]).map partSource) := by
      apply mapM_eq_map
      intro x _
      cases x with
      | str s => rfl
      | rx r => rfl
    have hdata : (String.join (([RPart.str "(?:"] ++ parts ++ [RPart.str ")"]).map
        partSource)).data = '(' :: '?' :: ':' :: (List.replicate parts.length '|' ++ [')']) := by
      unfold String.join
      rw [join_foldl_data]
      simp only [List.map_append, List.map_cons, List.map_nil, List.flatten_append,
        List.flatten_cons, List.flatten_nil, allPipe_join_data hall]
      rfl
    have h0 : (parts.length == 0) = false := by
      simp [hne]
    have hregg : regg u parts = newRegExp
        (String.join (([RPart.str "(?:"] ++ parts ++ [RPart.str ")"]).map partSource))
        (if u then "mu" else "m") := by
      unfold regg
      rw [h0]
      simp only [Bool.false_eq_true, if_false]
      unfold reg
      rw [hmapM]
    rw [hregg]
    unfold newRegExp
    rw [if_pos (by rw [hdata]; exact validPattern_group_pipes _ parts.length)]
    exact ⟨_, rfl⟩

/-- Witness for C5 at the concrete argument list `["|"]`. -/
theorem reg_pipe_guard_witness :
    (∃ m, reg true false [RPart.str "|"] = .error (JsError.usageError m)) ∧
    (∃ p, regg false [RPart.str "|"] = .ok p) := by
  have h := reg_pipe_guard false [RPart.str "|"]
  refine ⟨h.1 (by simp), h.2 (by simp) ?_⟩
  intro x hx
  simpa using hx

/-! Claim C9 (corrected): the guard tests whole-string equality with `|`, so a
multi-character literal containing `|` passes the guard verbatim — but the call
then compiles the joined source, which can throw a SyntaxError. -/

/-- C9 counterexample: the literal `a|b(` contains `|` together with other
characters, passes the alternation guard, and yet the call raises because the
verbatim concatenation is not a valid pattern. -/
theorem reg_pipe_literal_counterexample :
    reg true false [RPart.str "a|b("] =
      .error (.syntaxError "Invalid regular expression: /a|b(/") ∧
    '|' ∈ ("a|b(" : String).data ∧ ("a|b(" : String) ≠ "|" := by
  refine ⟨by rfl, by decide, by decide⟩

/-- C9 amended: the guard tests each argument for string equality with the
exact one-character string `|`, so any literal containing `|` among other
characters passes it; such a call is exactly the engine's compilation of the
verbatim concatenation of the arguments — succeeding when that source is a
valid pattern (so an ungrouped top-level alternation can still be introduced,
e.g. through `a|b`) and raising the engine's SyntaxError otherwise. -/
theorem reg_pipe_exact_equality : ∀ (u : Bool) (parts : List RPart),
    (∀ s, RPart.str s ∈ parts → s ≠ "|") →
    reg true u parts = newRegExp (String.join (parts.map partSource))
      (if u then "mu" else "m") := by
  intro u parts h
  have hmm : parts.mapM (regMapPart true) = .ok (parts.map partSource) := by
    apply mapM_eq_map
    intro x hx
    cases x with
    | str s =>
      have hs := h s hx
      simp [regMapPart, partSource, hs]
    | rx r => rfl
  unfold reg
  rw [hmm]

/-- Witness for the amended C9 theorem: the literal `a|b` passes the guard and
the verbatim concatenation compiles, introducing an ungrouped alternation. -/
theorem reg_pipe_exact_equality_witness :
    reg true true [RPart.str "a|b"] = .ok { source := "a|b", flags := "mu" } := by
  have h := reg_pipe_exact_equality true [RPart.str "a|b"] (by
    intro s hs
    simp only [List.mem_singleton, RPart.str.injEq] at hs
    subst hs
    decide)
  exact h.trans (by rfl)


/-! Lemmas about the matching semantics. -/

theorem litPre_decomp : ∀ {pat l : List Char}, litPre pat l = true → l = pat ++ l.drop pat.length := by
  intro pat
  induction pat with
  | nil => intro l _; simp
  | cons a pat ih =>
    intro l h
    cases l with
    | nil => cases h
    | cons b l2 =>
      simp only [litPre, Bool.and_eq_true, beq_iff_eq] at h
      obtain ⟨rfl, h2⟩ := h
      simpa using ih h2

theorem litPre_length {pat l : List Char} (h : litPre pat l = true) :
    pat.length ≤ l.length := by
  conv_rhs => rw [litPre_decomp h]
  simp

theorem litPre_extend (t : List Char) : ∀ {pat l : List Char},
    litPre pat l = true → litPre pat (l ++ t) = true := by
  intro pat
  induction pat with
  | nil => intro l _; rfl
  | cons a pat ih =>
    intro l h
    cases l with
    | nil => cases h
    | cons b l2 =>
      simp only [litPre, Bool.and_eq_true, beq_iff_eq] at h ⊢
      exact ⟨h.1, ih h.2⟩

theorem drop_append_of_le {n : Nat} {l t : List Char} (h : n ≤ l.length) :
    (l ++ t).drop n = l.drop n ++ t := by
  rw [List.drop_append_eq_append_drop, Nat.sub_eq_zero_of_le h, List.drop_zero]

theorem take_consumed_ext (pre rest t : List Char) :
    ((pre ++ rest) ++ t).take (((pre ++ rest) ++ t).length - (rest ++ t).length)
      = (pre ++ rest).take ((pre ++ rest).length - rest.length) := by
  have h1 : ((pre ++ rest) ++ t).length - (rest ++ t).length = pre.length := by
    simp only [List.length_append]
    omega
  have h2 : (pre ++ rest).length - rest.length = pre.length := by
    simp only [List.length_append]
    omega
  rw [h1, h2, List.append_assoc, List.take_left, List.take_left]

theorem prevAfter_ext (prev : Option Char) (pre rest t : List Char) :
    prevAfter prev ((pre ++ rest) ++ t) (rest ++ t) = prevAfter prev (pre ++ rest) rest := by
  unfold prevAfter
  rw [take_consumed_ext]

/-- Every continuation produced by `mrun` is a suffix of the input, and when
`r` excludes the character `ch` the consumed prefix avoids `ch`. -/
theorem mrun_consumed (ch : Char) : ∀ (f : Nat) (r : RE) (prev : Option Char)
    (cs : List Char) (p : List Char × Caps), p ∈ mrun f r prev cs →
    ∃ pre, cs = pre ++ p.1 ∧ (excludesChar ch r = true → ch ∉ pre) := by
  intro f
  induction f with
  | zero => intro r prev cs p hp; cases hp
  | succ f ih =>
    intro r prev cs p hp
    cases r with
    | eps =>
      simp only [mrun, List.mem_singleton] at hp
      subst hp
      exact ⟨[], rfl, fun _ => by simp⟩
    | lit l =>
      simp only [mrun] at hp
      split at hp
      case isTrue hl =>
        simp only [List.mem_singleton] at hp
        subst hp
        refine ⟨l, litPre_decomp hl, fun hex hmem => ?_⟩
        simp only [excludesChar, List.all_eq_true] at hex
        simpa using hex ch hmem
      case isFalse => cases hp
    | cls neg body =>
      cases cs with
      | nil => simp [mrun] at hp
      | cons c rest =>
        simp only [mrun] at hp
        split at hp
        case isTrue hc =>
          simp only [List.mem_singleton] at hp
          subst hp
          refine ⟨[c], rfl, fun hex hmem => ?_⟩
          simp only [excludesChar, beq_iff_eq] at hex
          simp only [List.mem_singleton] at hmem
          subst hmem
          rw [hex] at hc
          simp at hc
        case isFalse => cases hp
    | seq a b =>
      simp only [mrun, List.mem_flatMap, List.mem_map] at hp
      obtain ⟨p1, hp1, q, hq, heq⟩ := hp
      obtain ⟨pre1, h1, hx1⟩ := ih a prev cs p1 hp1
      obtain ⟨pre2, h2, hx2⟩ := ih b _ p1.1 q hq
      subst heq
      refine ⟨pre1 ++ pre2, ?_, ?_⟩
      · rw [h1, h2, List.append_assoc]
      · intro hex
        simp only [excludesChar, Bool.and_eq_true] at hex
        simp only [List.mem_append]
        rintro (hm | hm)
        · exact hx1 hex.1 hm
        · exact hx2 hex.2 hm
    | alt a b =>
      simp only [mrun, List.mem_append] at hp
      rcases hp with hp | hp
      · obtain ⟨pre, h1, hx⟩ := ih a prev cs p hp
        refine ⟨pre, h1, fun hex => ?_⟩
        simp only [excludesChar, Bool.and_eq_true] at hex
        exact hx hex.1
      · obtain ⟨pre, h1, hx⟩ := ih b prev cs p hp
        refine ⟨pre, h1, fun hex => ?_⟩
        simp only [excludesChar, Bool.and_eq_true] at hex
        exact hx hex.2
    | star a =>
      simp only [mrun, List.mem_append, List.mem_flatMap, List.mem_filter, List.mem_map,
        List.mem_singleton] at hp
      rcases hp with ⟨p1, ⟨hp1, _⟩, q, hq, heq⟩ | hp
      · obtain ⟨pre1, h1, hx1⟩ := ih a prev cs p1 hp1
        obtain ⟨pre2, h2, hx2⟩ := ih (.star a) _ p1.1 q hq
        subst heq
        refine ⟨pre1 ++ pre2, ?_, ?_⟩
        · rw [h1, h2, List.append_assoc]
        · intro hex
          simp only [List.mem_append]
          rintro (hm | hm)
          · exact hx1 (by simpa [excludesChar] using hex) hm
          · exact hx2 hex hm
      · subst hp
        exact ⟨[], rfl, fun _ => by simp⟩
    | plus a =>
      simp only [mrun, List.mem_flatMap, List.mem_map] at hp
      obtain ⟨p1, hp1, q, hq, heq⟩ := hp
      obtain ⟨pre1, h1, hx1⟩ := ih a prev cs p1 hp1
      obtain ⟨pre2, h2, hx2⟩ := ih (.star a) _ p1.1 q hq
      subst heq
      refine ⟨pre1 ++ pre2, ?_, ?_⟩
      · rw [h1, h2, List.append_assoc]
      · intro hex
        simp only [List.mem_append]
        rintro (hm | hm)
        · exact hx1 (by simpa [excludesChar] using hex) hm
        · exact hx2 (by simpa [excludesChar] using hex) hm
    | opt a =>
      simp only [mrun, List.mem_append, List.mem_singleton] at hp
      rcases hp with hp | hp
      · obtain ⟨pre, h1, hx⟩ := ih a prev cs p hp
        exact ⟨pre, h1, fun hex => hx (by simpa [excludesChar] using hex)⟩
      · subst hp
        exact ⟨[], rfl, fun _ => by simp⟩
    | ncg a =>
      simp only [mrun] at hp
      obtain ⟨pre, h1, hx⟩ := ih a prev cs p hp
      exact ⟨pre, h1, fun hex => hx (by simpa [excludesChar] using hex)⟩
    | group n a =>
      simp only [mrun, List.mem_map] at hp
      obtain ⟨q, hq, heq⟩ := hp
      obtain ⟨pre, h1, hx⟩ := ih a prev cs q hq
      subst heq
      exact ⟨pre, h1, fun hex => hx (by simpa [excludesChar] using hex)⟩
    | bol =>
      simp only [mrun] at hp
      split at hp
      case isTrue =>
        simp only [List.mem_singleton] at hp
        subst hp
        exact ⟨[], rfl, fun _ => by simp⟩
      case isFalse => cases hp
    | eol =>
      cases cs with
      | nil =>
        simp only [mrun, List.mem_singleton] at hp
        subst hp
        exact ⟨[], rfl, fun _ => by simp⟩
      | cons c rest =>
        simp only [mrun] at hp
        split at hp
        case isTrue =>
          simp only [List.mem_singleton] at hp
          subst hp
          exact ⟨[], rfl, fun _ => by simp⟩
        case isFalse => cases hp

theorem mrun_suffix {f : Nat} {r : RE} {prev : Option Char} {cs : List Char}
    {p : List Char × Caps} (hp : p ∈ mrun f r prev cs) : ∃ pre, cs = pre ++ p.1 := by
  obtain ⟨pre, h1, _⟩ := mrun_consumed ' ' f r prev cs p hp
  exact ⟨pre, h1⟩

/-- Appending text to the input preserves every continuation of an
end-of-line-free tree, captures included. -/
theorem mrun_append (t : List Char) : ∀ (f : Nat) (r : RE) (prev : Option Char)
    (cs : List Char) (p : List Char × Caps), noEol r = true → p ∈ mrun f r prev cs →
    (p.1 ++ t, p.2) ∈ mrun f r prev (cs ++ t) := by
  intro f
  induction f with
  | zero => intro r prev cs p _ hp; cases hp
  | succ f ih =>
    intro r prev cs p hne hp
    cases r with
    | eps =>
      simp only [mrun, List.mem_singleton] at hp ⊢
      subst hp
      rfl
    | lit l =>
      simp only [mrun] at hp ⊢
      split at hp
      case isTrue hl =>
        simp only [List.mem_singleton] at hp
        subst hp
        rw [if_pos (litPre_extend t hl), drop_append_of_le (litPre_length hl)]
        simp
      case isFalse => cases hp
    | cls neg body =>
      cases cs with
      | nil => simp [mrun] at hp
      | cons c rest =>
        simp only [mrun] at hp
        split at hp
        case isTrue hc =>
          simp only [List.mem_singleton] at hp
          subst hp
          simp only [List.cons_append, mrun]
          rw [if_pos hc]
          simp
        case isFalse => cases hp
    | seq a b =>
      simp only [noEol, Bool.and_eq_true] at hne
      simp only [mrun, List.mem_flatMap, List.mem_map] at hp ⊢
      obtain ⟨p1, hp1, q, hq, heq⟩ := hp
      obtain ⟨pre1, hpre1⟩ := mrun_suffix hp1
      have hprev : prevAfter prev (cs ++ t) (p1.1 ++ t) = prevAfter prev cs p1.1 := by
        rw [hpre1]
        exact prevAfter_ext prev pre1 p1.1 t
      refine ⟨(p1.1 ++ t, p1.2), ih a prev cs p1 hne.1 hp1, (q.1 ++ t, q.2), ?_, ?_⟩
      · rw [hprev]
        exact ih b _ p1.1 q hne.2 hq
      · rw [← heq]
    | alt a b =>
      simp only [noEol, Bool.and_eq_true] at hne
      simp only [mrun, List.mem_append] at hp ⊢
      rcases hp with hp | hp
      · exact Or.inl (ih a prev cs p hne.1 hp)
      · exact Or.inr (ih b prev cs p hne.2 hp)
    | star a =>
      have hna : noEol a = true := by simpa [noEol] using hne
      simp only [mrun, List.mem_append, List.mem_flatMap, List.mem_filter, List.mem_map,
        List.mem_singleton] at hp ⊢
      rcases hp with ⟨p1, ⟨hp1, hlen⟩, q, hq, heq⟩ | hp
      · obtain ⟨pre1, hpre1⟩ := mrun_suffix hp1
        have hprev : prevAfter prev (cs ++ t) (p1.1 ++ t) = prevAfter prev cs p1.1 := by
          rw [hpre1]
          exact prevAfter_ext prev pre1 p1.1 t
        refine Or.inl ⟨(p1.1 ++ t, p1.2), ⟨ih a prev cs p1 hna hp1, by
          have h2 : p1.1.length < cs.length := by simpa using hlen
          simp only [List.length_append, decide_eq_true_eq]
          omega⟩,
          (q.1 ++ t, q.2), ?_, ?_⟩
        · rw [hprev]
          exact ih (.star a) _ p1.1 q (by simpa [noEol] using hne) hq
        · rw [← heq]
      · subst hp
        exact Or.inr rfl
    | plus a =>
      have hna : noEol a = true := by simpa [noEol] using hne
      simp only [mrun, List.mem_flatMap, List.mem_map] at hp ⊢
      obtain ⟨p1, hp1, q, hq, heq⟩ := hp
      obtain ⟨pre1, hpre1⟩ := mrun_suffix hp1
      have hprev : prevAfter prev (cs ++ t) (p1.1 ++ t) = prevAfter prev cs p1.1 := by
        rw [hpre1]
        exact prevAfter_ext prev pre1 p1.1 t
      refine ⟨(p1.1 ++ t, p1.2), ih a prev cs p1 hna hp1, (q.1 ++ t, q.2), ?_, ?_⟩
      · rw [hprev]
        exact ih (.star a) _ p1.1 q (by simpa [noEol] using hne) hq
      · rw [← heq]
    | opt a =>
      have hna : noEol a = true := by simpa [noEol] using hne
      simp only [mrun, List.mem_append, List.mem_singleton] at hp ⊢
      rcases hp with hp | hp
      · exact Or.inl (ih a prev cs p hna hp)
      · subst hp
        exact Or.inr rfl
    | ncg a =>
      have hna : noEol a = true := by simpa [noEol] using hne
      simp only [mrun] at hp ⊢
      exact ih a prev cs p hna hp
    | group n a =>
      have hna : noEol a = true := by simpa [noEol] using hne
      simp only [mrun, List.mem_map] at hp ⊢
      obtain ⟨q, hq, heq⟩ := hp
      obtain ⟨pre, hpre⟩ := mrun_suffix hq
      refine ⟨(q.1 ++ t, q.2), ih a prev cs q hna hq, ?_⟩
      have hcap : (cs ++ t).take ((cs ++ t).length - (q.1 ++ t).length)
          = cs.take (cs.length - q.1.length) := by
        rw [hpre]
        exact take_consumed_ext pre q.1 t
      rw [hcap, ← heq]
    | bol =>
      simp only [mrun] at hp ⊢
      split at hp
      case isTrue hb =>
        simp only [List.mem_singleton] at hp
        subst hp
        rw [if_pos hb]
        simp
      case isFalse => cases hp
    | eol => simp [noEol] at hne

theorem jsTestAux_of_mem {f : Nat} {r : RE} {prev : Option Char} {cs : List Char}
    {p : List Char × Caps} (hp : p ∈ mrun f r prev cs) : jsTestAux f r prev cs = true := by
  have hne : (mrun f r prev cs).isEmpty = false := by
    cases hm : mrun f r prev cs
    · rw [hm] at hp
      cases hp
    · rfl
  cases cs with
  | nil => simp [jsTestAux, hne]
  | cons c rest => simp [jsTestAux, hne]

/-! Claim C6 (confirmed): `NCName` never matches a string containing `:`,
while `Name` does match strings containing `:`. -/

/-- C6: the rendered `NCName`/`Name` trees equal the built sources; no string
containing the separator is in the language of `NCName` (at any fuel), while the
one-character separator string itself is in the language of `Name`. -/
theorem NCName_no_colon : ∀ (u : Bool) (f : Nat) (s : String),
    (NCName_ast u).render = (NCName u).source ∧
    (Name_ast u).render = (Name u).source ∧
    (':' ∈ s.data → fullMatchF f (NCName_ast u) s = false) ∧
    fullMatchF 5 (Name_ast u) (String.mk [':']) = true := by
  intro u f s
  refine ⟨by cases u <;> decide, by cases u <;> decide, ?_, by cases u <;> decide⟩
  intro hc
  by_contra hfm
  rw [Bool.not_eq_false] at hfm
  unfold fullMatchF at hfm
  rw [List.any_eq_true] at hfm
  obtain ⟨p, hp, hemp⟩ := hfm
  rw [List.isEmpty_iff] at hemp
  obtain ⟨pre, hpre, hx⟩ := mrun_consumed ':' f (NCName_ast u) none s.data p hp
  have hex : excludesChar ':' (NCName_ast u) = true := by cases u <;> decide
  rw [hemp, List.append_nil] at hpre
  exact hx hex (hpre ▸ hc)

/-- Witness for C6 at the concrete inputs `a:b` and `:`. -/
theorem NCName_no_colon_witness :
    fullMatchF 9 (NCName_ast true) "a:b" = false ∧
    fullMatchF 5 (Name_ast true) (String.mk [':']) = true := by
  have h := NCName_no_colon true 9 "a:b"
  exact ⟨h.2.2.1 (by decide), h.2.2.2⟩

/-! Claim C7 (confirmed): behaviour of the anchored whole-string QName. -/

/-- C7: `QName_exact` renders to the built source, matches `ns:local` and
`local`, and rejects `a:b:c` and `1abc`. -/
theorem QName_exact_examples : ∀ u : Bool,
    (QName_exact_ast u).render = (QName_exact u).source ∧
    jsTestF 20 (QName_exact_ast u) "ns:local" = true ∧
    jsTestF 20 (QName_exact_ast u) "local" = true ∧
    jsTestF 20 (QName_exact_ast u) "a:b:c" = false ∧
    jsTestF 20 (QName_exact_ast u) "1abc" = false := by
  intro u
  cases u <;> decide

/-! Claim C8 (confirmed): named captures of the ExternalID matching variant. -/

/-- C8: `ExternalID_match` renders to the built source; on the SYSTEM example it
captures `SystemLiteralOnly` (quotes included) with the PUBLIC-form groups
undefined, and on the PUBLIC example it captures `PubidLiteral` and
`SystemLiteral`, quotes included. -/
theorem ExternalID_match_captures : ∀ u : Bool,
    (ExternalID_match_ast u).render = (ExternalID_match u).source ∧
    groupVal (jsExecF 60 (ExternalID_match_ast u) "SYSTEM \"http://example.org/x.dtd\"")
      "SystemLiteralOnly" = some "\"http://example.org/x.dtd\"" ∧
    groupVal (jsExecF 60 (ExternalID_match_ast u) "SYSTEM \"http://example.org/x.dtd\"")
      "PubidLiteral" = none ∧
    groupVal (jsExecF 60 (ExternalID_match_ast u) "SYSTEM \"http://example.org/x.dtd\"")
      "SystemLiteral" = none ∧
    groupVal (jsExecF 60 (ExternalID_match_ast u) "PUBLIC \"-//X//Y\" \"http://example.org/x.dtd\"")
      "PubidLiteral" = some "\"-//X//Y\"" ∧
    groupVal (jsExecF 60 (ExternalID_match_ast u) "PUBLIC \"-//X//Y\" \"http://example.org/x.dtd\"")
      "SystemLiteral" = some "\"http://example.org/x.dtd\"" := by
  intro u
  cases u <;> decide

/-! Claim C10 (confirmed): `ExternalID_match` is anchored at the start only, so
a well-formed ExternalID prefix matches whatever trailing text follows, and the
captures of the prefix match are preserved. -/

/-- C10: whenever the body of `ExternalID_match` consumes all of `s` with
captures `caps`, the full anchored pattern matches `s ++ t` for every trailing
text `t`, with a match taken from the leading prefix carrying the same
captures. -/
theorem ExternalID_match_start_anchored : ∀ (u : Bool) (f : Nat) (s t : String)
    (caps : Caps),
    ([], caps) ∈ mrun f (ExternalID_inner_ast u) none s.data →
    (ExternalID_match_ast u).render = (ExternalID_match u).source ∧
    (t.data, caps) ∈ mrun (f + 1) (ExternalID_match_ast u) none (s ++ t).data ∧
    jsTestF (f + 1) (ExternalID_match_ast u) (s ++ t) = true := by
  intro u f s t caps h
  have hne : noEol (ExternalID_inner_ast u) = true := by cases u <;> decide
  have hext := mrun_append t.data f (ExternalID_inner_ast u) none s.data ([], caps) hne h
  rw [List.nil_append] at hext
  have hdata : (s ++ t).data = s.data ++ t.data := by simp
  cases f with
  | zero => cases h
  | succ f =>
    have hmem : (t.data, caps) ∈
        mrun (f + 1 + 1) (ExternalID_match_ast u) none (s.data ++ t.data) := by
      show (t.data, caps) ∈ mrun (f + 1 + 1) (.seq .bol (ExternalID_inner_ast u)) none
        (s.data ++ t.data)
      simp only [mrun]
      rw [List.mem_flatMap]
      refine ⟨(s.data ++ t.data, []), ?_, ?_⟩
      · simp [Option.all]
      · rw [List.mem_map]
        refine ⟨(t.data, caps), ?_, by simp⟩
        have hpa : prevAfter none (s.data ++ t.data) (s.data ++ t.data) = none := by
          simp [prevAfter]
        rw [hpa]
        exact hext
    refine ⟨by cases u <;> decide, by rw [hdata]; exact hmem, ?_⟩
    unfold jsTestF
    rw [hdata]
    exact jsTestAux_of_mem hmem

/-- Witness for C10: a SYSTEM-form ExternalID followed by trailing text. -/
theorem ExternalID_match_start_anchored_witness :
    jsTestF 61 (ExternalID_match_ast true) ("SYSTEM \"x\"" ++ "!tail") = true := by
  have h := ExternalID_match_start_anchored true 60 "SYSTEM \"x\"" "!tail"
    [("SystemLiteralOnly", "\"x\"")] (by decide)
  exact h.2.2

end XmldomGrammar
